import Mathlib

/-!
Verification development for the `ConversationMemory` component of the
system-architect repository (`src/system_architect/core/retrieval.py`).

Strings are modelled as `List Char`, restricted to ASCII text (the regular
expressions in the source, `[a-z0-9]` and the ASCII reading of `\w`/`\s`,
are modelled character class by character class).  Python sets of keywords
are modelled as duplicate-free lists (first-occurrence deduplication);
every set operation used by the source (emptiness test, intersection
cardinality, membership) is order-independent.  Python floats only ever
hold small dyadic rationals here (sums of integers and `index/len*2`), so
scores are modelled exactly by `ℚ`.  `datetime.now().isoformat()` is
modelled as an explicit timestamp argument.
-/

/-- Character class of the ASCII reading of the regex class `\w`
(letters, digits, underscore), used by the word-boundary `\b` and by the
phrase pattern `\b\w+\s+\w+\s+\w+\b`. -/
def isWordChar (c : Char) : Bool :=
  (97 ≤ c.toNat && c.toNat ≤ 122) || (65 ≤ c.toNat && c.toNat ≤ 90) ||
    (48 ≤ c.toNat && c.toNat ≤ 57) || c == '_'

/-- Character class of the regex class `[a-z0-9]` used by
`_extract_keywords`. -/
def isLowerAlnum (c : Char) : Bool :=
  (97 ≤ c.toNat && c.toNat ≤ 122) || (48 ≤ c.toNat && c.toNat ≤ 57)

/-- Character class of the ASCII reading of the regex class `\s`. -/
def isSpaceChar (c : Char) : Bool :=
  c == ' ' || c == '\t' || c == '\n' || c == '\r' || c == '\x0b' || c == '\x0c'

/-- Python `str.lower()` on ASCII text. -/
def lowerL (s : List Char) : List Char := s.map Char.toLower

/-- Fuelled scanner for the maximal runs of characters satisfying `p`;
characters outside the class separate runs and are discarded.  The fuel
(always instantiated with the length of the input, see `runsP`) makes the
definition structurally recursive. -/
def runsF (p : Char → Bool) : Nat → List Char → List (List Char)
  | 0, _ => []
  | _ + 1, [] => []
  | fuel + 1, c :: cs =>
    if p c then (c :: cs.takeWhile p) :: runsF p fuel (cs.dropWhile p)
    else runsF p fuel cs

/-- Maximal runs of characters satisfying `p` in a string. -/
def runsP (p : Char → Bool) (s : List Char) : List (List Char) :=
  runsF p s.length s

/-- Fuelled scanner splitting a string into its maximal `\w`-runs, each
paired with the maximal gap of non-word characters that follows it. -/
def lexF : Nat → List Char → List (List Char × List Char)
  | 0, _ => []
  | _ + 1, [] => []
  | fuel + 1, c :: cs =>
    if isWordChar c then
      let w := c :: cs.takeWhile isWordChar
      let r := cs.dropWhile isWordChar
      (w, r.takeWhile (fun d => !isWordChar d)) ::
        lexF fuel (r.dropWhile (fun d => !isWordChar d))
    else lexF fuel cs

/-- Word runs of a string together with their trailing gaps. -/
def lexRuns (s : List Char) : List (List Char × List Char) := lexF s.length s

/-- First-occurrence deduplication (model of building a Python `set` from
a sequence); `seen` accumulates the elements already emitted. -/
def dedupGo : List (List Char) → List (List Char) → List (List Char)
  | _, [] => []
  | seen, a :: as =>
    if decide (a ∈ seen) then dedupGo seen as else a :: dedupGo (a :: seen) as

/-- Duplicate-free list of the elements of `l`, in first-occurrence order. -/
def dedupF (l : List (List Char)) : List (List Char) := dedupGo [] l

/-- Join a list of words with single spaces. -/
def joinSp : List (List Char) → List Char
  | [] => []
  | [k] => k
  | k :: k' :: ks => k ++ ' ' :: joinSp (k' :: ks)

/-- The stop-word set of `_extract_keywords`. -/
def stopWords : List (List Char) :=
  ["the", "a", "an", "and", "or", "but", "in", "on", "at", "to", "for",
   "of", "with", "by", "from", "as", "is", "was", "are", "were", "be",
   "been", "being", "have", "has", "had", "do", "does", "did", "will",
   "would", "should", "could", "may", "might", "must", "can", "this",
   "that", "these", "those", "i", "you", "he", "she", "it", "we",
   "they"].map String.toList

/-- Model of `ConversationMemory._extract_keywords`.
`re.findall(r'\b[a-z0-9]+\b', text.lower())` matches exactly those
maximal `\w`-runs of the lowercased text that consist entirely of
`[a-z0-9]` characters (a run containing any other word character, such as
an underscore, has no interior word boundary and therefore yields no
match at all); the set comprehension then drops stop-words and tokens of
length at most 2 and collapses duplicates. -/
def extractKeywords (t : List Char) : List (List Char) :=
  dedupF (((runsP isWordChar (lowerL t)).filter (fun w => w.all isLowerAlnum)).filter
    (fun w => !(decide (w ∈ stopWords)) && decide (2 < w.length)))

/-- Does the pattern (first argument) occur at the head of the text
(second argument)? -/
def leadEq : List Char → List Char → Bool
  | [], _ => true
  | _ :: _, [] => false
  | a :: as, b :: bs => a == b && leadEq as bs

/-- Python substring containment `needle in hay`. -/
def hasSub (hay needle : List Char) : Bool :=
  match hay with
  | [] => needle.isEmpty
  | _ :: t => leadEq needle hay || hasSub t needle

/-- Model of `re.findall(r'\b\w+\s+\w+\s+\w+\b', query_text)` on the
word-run/gap decomposition of the text: scanning left to right, three
consecutive word runs whose two separating gaps are non-empty and consist
entirely of whitespace form a match (the matched substring keeps its
original gaps), and the scan resumes after the third word, so matches
never overlap; otherwise the scan advances by one word run. -/
def phrasesGo : List (List Char × List Char) → List (List Char)
  | (w1, g1) :: (w2, g2) :: (w3, g3) :: rest =>
    if !g1.isEmpty && g1.all isSpaceChar && !g2.isEmpty && g2.all isSpaceChar then
      (w1 ++ g1 ++ w2 ++ g2 ++ w3) :: phrasesGo rest
    else phrasesGo ((w2, g2) :: (w3, g3) :: rest)
  | _ => []

/-- The 3-word phrases the source extracts from the (already lowercased)
query text. -/
def pyPhrases (queryText : List Char) : List (List Char) :=
  phrasesGo (lexRuns queryText)

/-- Model of the phrase-bonus loop of `_calculate_relevance_score`:
`for phrase in query_phrases: if phrase in entry_text_lower: score += 5; break`. -/
def phraseLoop : List (List Char) → List Char → ℚ
  | [], _ => 0
  | p :: ps, entryTextLower =>
    if hasSub entryTextLower p then 5 else phraseLoop ps entryTextLower

/-- All overlapping 3-word windows of a token list, joined with single
spaces. -/
def windows3 : List (List Char) → List (List Char)
  | a :: b :: c :: rest => (a ++ ' ' :: (b ++ ' ' :: c)) :: windows3 (b :: c :: rest)
  | _ => []

/-- Formalisation of the specification's words for the phrase component
(for comparison with `pyPhrases`): all overlapping 3-word windows of the
lowercased query text. -/
def specOverlappingWindows (q : List Char) : List (List Char) :=
  windows3 (runsP isWordChar (lowerL q))

/-- Formalisation of the specification's words for keyword extraction
(for comparison with `extractKeywords`): tokenize the lowercased text
into maximal runs of ASCII letters and digits, every other character
acting as a separator, then drop stop-words and short tokens. -/
def specTokenExtract (t : List Char) : List (List Char) :=
  dedupF ((runsP isLowerAlnum (lowerL t)).filter
    (fun w => !(decide (w ∈ stopWords)) && decide (2 < w.length)))

/-- One stored entry (the dict built by `ConversationMemory.add`).
`metadata` is modelled as a string-valued association list. -/
structure Entry where
  id : String
  text : List Char
  type : String
  keywords : List (List Char)
  timestamp : String
  metadata : List (String × String)
  deriving DecidableEq

/-- The `ConversationMemory` state. -/
structure Memory where
  projectId : String
  entries : List Entry
  deriving DecidableEq

/-- `self.max_entries`. -/
def maxEntries : Nat := 100

/-- The entry dict built inside `add` when the store currently holds
`numEntries` entries. -/
def mkEntry (numEntries : Nat) (text : List Char) (metadata : List (String × String))
    (ts : String) : Entry :=
  { id := (metadata.lookup "id").getD ("entry_" ++ Nat.repr numEntries)
    text := text
    type := (metadata.lookup "type").getD "general"
    keywords := extractKeywords text
    timestamp := ts
    metadata := metadata }

/-- Model of `ConversationMemory.add` (`None` metadata is passed as the
empty bag, mirroring `metadata = metadata or {}`; the timestamp is an
explicit argument). -/
def add (m : Memory) (text : List Char) (metadata : List (String × String))
    (ts : String) : Memory :=
  let e := mkEntry m.entries.length text metadata ts
  let es := m.entries ++ [e]
  { m with entries := if maxEntries < es.length then es.drop (es.length - maxEntries) else es }

/-- Arguments of one `add` call. -/
structure AddCall where
  text : List Char
  metadata : List (String × String)
  ts : String
  deriving DecidableEq

/-- Apply a sequence of `add` calls to a store. -/
def runFrom : Memory → List AddCall → Memory
  | m, [] => m
  | m, c :: cs => runFrom (add m c.text c.metadata c.ts) cs

/-- Apply a sequence of `add` calls to a fresh store. -/
def runAdds (pid : String) (cs : List AddCall) : Memory :=
  runFrom { projectId := pid, entries := [] } cs

/-- The last `k` elements of a list (all of it when it is shorter). -/
def lastK (k : Nat) (l : List α) : List α := l.drop (l.length - k)

/-- Model of the Python slice `l[-n:]` (for `n = 0` it is `l[0:]`, the
whole list). -/
def pyLastSlice (l : List Entry) (n : Nat) : List Entry :=
  if n = 0 then l else l.drop (l.length - n)

/-- Model of `ConversationMemory.get_recent`. -/
def getRecent (m : Memory) (n : Nat) : List (List Char) :=
  let recent := if n ≤ m.entries.length then pyLastSlice m.entries n else m.entries
  recent.reverse.map (fun e => e.text)

/-- The `type_priority` table of `_calculate_relevance_score`, composed
with `.get(entry["type"], 1)`. -/
def typePriority (t : String) : ℚ :=
  if t = "requirements" then 5
  else if t = "architecture" then 5
  else if t = "explanation" then 4
  else if t = "recommendations" then 3
  else if t = "qa" then 2
  else if t = "general" then 1
  else 1

/-- Model of Python `list.index` (index of the first structurally equal
element; the source only calls it on members of the list). -/
def pyIndex (e : Entry) : List Entry → Nat
  | [] => 0
  | x :: xs => if x = e then 0 else pyIndex e xs + 1

/-- `len(query_keywords & entry_keywords)`: the number of (distinct)
query keywords that also occur among the entry keywords. -/
def keywordOverlap (queryKeywords entryKeywords : List (List Char)) : Nat :=
  (queryKeywords.filter (fun w => decide (w ∈ entryKeywords))).length

/-- The recency component `(self.entries.index(entry) / len(self.entries)) * 2`. -/
def recencyScore (entries : List Entry) (e : Entry) : ℚ :=
  (((pyIndex e entries : Nat) : ℚ) / ((entries.length : Nat) : ℚ)) * 2

/-- The phrase component: the bonus loop run over the 3-word phrases of
the query text against the lowercased entry text. -/
def phraseScore (e : Entry) (queryText : List Char) : ℚ :=
  phraseLoop (pyPhrases queryText) (lowerL e.text)

/-- Model of `ConversationMemory._calculate_relevance_score` (the four
sequential `score +=` steps, summed). -/
def calculateRelevanceScore (entries : List Entry) (e : Entry)
    (queryKeywords : List (List Char)) (queryText : List Char) : ℚ :=
  (if queryKeywords ≠ [] ∧ e.keywords ≠ [] then
      ((min (keywordOverlap queryKeywords e.keywords * 2) 10 : Nat) : ℚ)
    else 0)
  + typePriority e.type
  + recencyScore entries e
  + phraseScore e queryText

/-- Stable descending insertion by score: a new pair goes after every
already-placed pair of greater-or-equal score.  On score-sorted input
this computes the same permutation as Python's stable `list.sort(key =
lambda x: x[0], reverse=True)`. -/
def insertScored (a : ℚ × Entry) : List (ℚ × Entry) → List (ℚ × Entry)
  | [] => [a]
  | b :: bs => if a.1 ≤ b.1 then b :: insertScored a bs else a :: b :: bs

/-- Model of `scored_entries.sort(key=lambda x: x[0], reverse=True)`
(a stable sort, descending on the score component). -/
def sortScored (l : List (ℚ × Entry)) : List (ℚ × Entry) :=
  l.foldl (fun acc x => insertScored x acc) []

/-- The `scored_entries` list built by `ConversationMemory.query`. -/
def scoredOf (m : Memory) (prompt : List Char) : List (ℚ × Entry) :=
  m.entries.map (fun e =>
    (calculateRelevanceScore m.entries e (extractKeywords prompt) (lowerL prompt), e))

/-- Model of `ConversationMemory.query`. -/
def query (m : Memory) (prompt : List Char) (n : Nat) : List (List Char) :=
  if m.entries.isEmpty then []
  else
    (((sortScored (scoredOf m prompt)).take n).filter
        (fun p => decide ((0 : ℚ) < p.1))).map (fun p => p.2.text)

/-- The descending-score relation used to state sortedness of the query
output. -/
def scoreGE (a b : ℚ × Entry) : Prop := b.1 ≤ a.1

/-- Concrete entry for the claim C2 scenario: `general` type, keywords
disjoint from those of the query `"xyz"`, text without any 3-word query
phrase; its fields are those `add("hello")` would build at index 0. -/
def c2entry : Entry :=
  ⟨"entry_0", String.toList "hello", "general", [String.toList "hello"], "t0", []⟩

/-- Concrete entry used twice (two structurally identical stored dicts)
in the claim C6 counterexample. -/
def c6dup : Entry := ⟨"i", String.toList "hey", "general", [], "t", []⟩

/-- First of two entries that agree on every score-relevant field but
differ in timestamp (claim C6 witness). -/
def c6fst : Entry := ⟨"i1", String.toList "hey", "general", [], "t1", []⟩

/-- Second of two entries that agree on every score-relevant field but
differ in timestamp (claim C6 witness). -/
def c6snd : Entry := ⟨"i2", String.toList "hey", "general", [], "t2", []⟩

/-- Concrete single stored entry for the claim C3 counterexample. -/
def c3entry : Entry := ⟨"a", String.toList "hi", "general", [], "t", []⟩

/-- Two-entry store for the claim C3 witness. -/
def c3mem : Memory :=
  ⟨"p", [⟨"a", String.toList "one", "general", [String.toList "one"], "t1", []⟩,
         ⟨"b", String.toList "two", "general", [String.toList "two"], "t2", []⟩]⟩

/-- Concrete entry used to fill a full store for the claim C4 witness. -/
def c4entry : Entry := ⟨"e", String.toList "aaa", "general", [String.toList "aaa"], "t", []⟩

/-- Concrete `add` call for the claim C4 witness. -/
def c4call : AddCall := ⟨String.toList "aaa", [], "t"⟩

/-- Concrete entry with an empty keyword set for the claim C7 witness. -/
def c7entry : Entry := ⟨"i", [], "general", [], "t", []⟩

/-- Concrete text for the claim C10 witness. -/
def c10text : List Char := String.toList "great database architecture design"

theorem takeWhile_all {α : Type} (p : α → Bool) :
    ∀ l : List α, (∀ c ∈ l, p c = true) → l.takeWhile p = l := by
  intro l
  induction l with
  | nil => intro _; rfl
  | cons a t ih =>
    intro h
    rw [List.takeWhile_cons, if_pos (h a (List.mem_cons_self a t)),
      ih (fun c hc => h c (List.mem_cons_of_mem a hc))]

theorem dropWhile_all {α : Type} (p : α → Bool) :
    ∀ l : List α, (∀ c ∈ l, p c = true) → l.dropWhile p = [] := by
  intro l
  induction l with
  | nil => intro _; rfl
  | cons a t ih =>
    intro h
    rw [List.dropWhile_cons, if_pos (h a (List.mem_cons_self a t)),
      ih (fun c hc => h c (List.mem_cons_of_mem a hc))]

theorem takeWhile_all_append {α : Type} (p : α → Bool) :
    ∀ (l : List α) (x : α) (r : List α), (∀ c ∈ l, p c = true) → p x = false →
      (l ++ x :: r).takeWhile p = l := by
  intro l
  induction l with
  | nil =>
    intro x r _ hx
    rw [List.nil_append, List.takeWhile_cons, if_neg (by simp [hx])]
  | cons a t ih =>
    intro x r h hx
    rw [List.cons_append, List.takeWhile_cons, if_pos (h a (List.mem_cons_self a t)),
      ih x r (fun c hc => h c (List.mem_cons_of_mem a hc)) hx]

theorem dropWhile_all_append {α : Type} (p : α → Bool) :
    ∀ (l : List α) (x : α) (r : List α), (∀ c ∈ l, p c = true) → p x = false →
      (l ++ x :: r).dropWhile p = x :: r := by
  intro l
  induction l with
  | nil =>
    intro x r _ hx
    rw [List.nil_append, List.dropWhile_cons, if_neg (by simp [hx])]
  | cons a t ih =>
    intro x r h hx
    rw [List.cons_append, List.dropWhile_cons, if_pos (h a (List.mem_cons_self a t)),
      ih x r (fun c hc => h c (List.mem_cons_of_mem a hc)) hx]

theorem mem_takeWhile_pred {α : Type} (p : α → Bool) :
    ∀ (l : List α) (c : α), c ∈ l.takeWhile p → p c = true := by
  intro l
  induction l with
  | nil => intro c hc; simp [List.takeWhile] at hc
  | cons a t ih =>
    intro c hc
    rw [List.takeWhile_cons] at hc
    by_cases ha : p a = true
    · rw [if_pos ha] at hc
      rcases List.mem_cons.mp hc with h | h
      · exact h ▸ ha
      · exact ih c h
    · rw [if_neg ha] at hc
      simp at hc

theorem runsF_nil (p : Char → Bool) : ∀ fuel : Nat, runsF p fuel [] = [] := by
  intro fuel
  cases fuel <;> rfl

theorem runsF_mem (p : Char → Bool) :
    ∀ (fuel : Nat) (s w : List Char), w ∈ runsF p fuel s →
      w ≠ [] ∧ ∀ c ∈ w, p c = true := by
  intro fuel
  induction fuel with
  | zero => intro s w h; simp [runsF] at h
  | succ f ih =>
    intro s w h
    cases s with
    | nil => simp [runsF] at h
    | cons c cs =>
      by_cases hc : p c = true
      · rw [runsF, if_pos hc] at h
        rcases List.mem_cons.mp h with h1 | h1
        · subst h1
          refine ⟨List.cons_ne_nil _ _, ?_⟩
          intro d hd
          rcases List.mem_cons.mp hd with h2 | h2
          · exact h2 ▸ hc
          · exact mem_takeWhile_pred p cs d h2
        · exact ih _ w h1
      · rw [runsF, if_neg hc] at h
        exact ih _ w h

theorem runsP_mem (p : Char → Bool) (s w : List Char) (h : w ∈ runsP p s) :
    w ≠ [] ∧ ∀ c ∈ w, p c = true :=
  runsF_mem p s.length s w h

theorem mem_dedupGo :
    ∀ (l seen : List (List Char)) (x : List Char),
      x ∈ dedupGo seen l ↔ x ∈ l ∧ x ∉ seen := by
  intro l
  induction l with
  | nil => intro seen x; simp [dedupGo]
  | cons a t ih =>
    intro seen x
    by_cases ha : a ∈ seen
    · rw [dedupGo, if_pos (by simpa using ha), ih]
      constructor
      · rintro ⟨h1, h2⟩; exact ⟨List.mem_cons_of_mem a h1, h2⟩
      · rintro ⟨h1, h2⟩
        rcases List.mem_cons.mp h1 with h3 | h3
        · exact absurd (h3 ▸ ha) h2
        · exact ⟨h3, h2⟩
    · rw [dedupGo, if_neg (by simpa using ha)]
      constructor
      · intro h
        rcases List.mem_cons.mp h with h1 | h1
        · exact ⟨h1 ▸ List.mem_cons_self a t, h1 ▸ ha⟩
        · obtain ⟨h2, h3⟩ := (ih (a :: seen) x).mp h1
          exact ⟨List.mem_cons_of_mem a h2, fun hx => h3 (List.mem_cons_of_mem a hx)⟩
      · rintro ⟨h1, h2⟩
        rcases List.mem_cons.mp h1 with h3 | h3
        · exact h3 ▸ List.mem_cons_self a _
        · by_cases hxa : x = a
          · exact hxa ▸ List.mem_cons_self a _
          · exact List.mem_cons_of_mem a ((ih (a :: seen) x).mpr
              ⟨h3, fun hx => (List.mem_cons.mp hx).elim hxa h2⟩)

theorem nodup_dedupGo :
    ∀ (l seen : List (List Char)), (dedupGo seen l).Nodup := by
  intro l
  induction l with
  | nil => intro seen; simp [dedupGo]
  | cons a t ih =>
    intro seen
    by_cases ha : a ∈ seen
    · rw [dedupGo, if_pos (by simpa using ha)]; exact ih seen
    · rw [dedupGo, if_neg (by simpa using ha)]
      refine List.nodup_cons.mpr ⟨?_, ih (a :: seen)⟩
      intro hmem
      exact ((mem_dedupGo t (a :: seen) a).mp hmem).2 (List.mem_cons_self a seen)

theorem dedupGo_eq_self :
    ∀ (l seen : List (List Char)), l.Nodup → (∀ x ∈ l, x ∉ seen) →
      dedupGo seen l = l := by
  intro l
  induction l with
  | nil => intro seen _ _; rfl
  | cons a t ih =>
    intro seen hnd hs
    obtain ⟨hat, hnd'⟩ := List.nodup_cons.mp hnd
    rw [dedupGo, if_neg (by simpa using hs a (List.mem_cons_self a t))]
    congr 1
    refine ih (a :: seen) hnd' ?_
    intro x hx hmem
    rcases List.mem_cons.mp hmem with h1 | h1
    · exact hat (h1 ▸ hx)
    · exact hs x (List.mem_cons_of_mem a hx) h1

theorem mem_dedupF (l : List (List Char)) (x : List Char) :
    x ∈ dedupF l ↔ x ∈ l := by
  unfold dedupF
  rw [mem_dedupGo]
  simp

theorem nodup_dedupF (l : List (List Char)) : (dedupF l).Nodup :=
  nodup_dedupGo l []

theorem dedupF_eq_self (l : List (List Char)) (h : l.Nodup) : dedupF l = l :=
  dedupGo_eq_self l [] h (by simp)

theorem mem_extractKeywords (t w : List Char) :
    w ∈ extractKeywords t ↔
      w ∈ runsP isWordChar (lowerL t) ∧ w.all isLowerAlnum = true ∧
        w ∉ stopWords ∧ 2 < w.length := by
  unfold extractKeywords
  rw [mem_dedupF]
  simp only [List.mem_filter, Bool.and_eq_true, Bool.not_eq_true', decide_eq_false_iff_not,
    decide_eq_true_eq]
  tauto

theorem phraseLoop_eq_ite (ps : List (List Char)) (et : List Char) :
    phraseLoop ps et = if ps.any (fun p => hasSub et p) then 5 else 0 := by
  induction ps with
  | nil => simp [phraseLoop]
  | cons p ps ih =>
    by_cases h : hasSub et p = true
    · simp [phraseLoop, h]
    · simp only [phraseLoop, h, if_false, Bool.false_eq_true, ih, List.any_cons,
        Bool.false_or]

theorem phraseLoop_nonneg (ps : List (List Char)) (et : List Char) :
    0 ≤ phraseLoop ps et := by
  rw [phraseLoop_eq_ite]
  split <;> norm_num

theorem lowerAlnum_isWordChar (c : Char) (h : isLowerAlnum c = true) :
    isWordChar c = true := by
  unfold isLowerAlnum at h
  unfold isWordChar
  simp only [Bool.or_eq_true, Bool.and_eq_true, decide_eq_true_eq] at h ⊢
  tauto

theorem toLower_eq_self (c : Char) (h : isLowerAlnum c = true) :
    Char.toLower c = c := by
  unfold isLowerAlnum at h
  simp only [Bool.or_eq_true, Bool.and_eq_true, decide_eq_true_eq] at h
  unfold Char.toLower
  rw [if_neg]
  omega

theorem map_id_of {α : Type} (f : α → α) :
    ∀ l : List α, (∀ c ∈ l, f c = c) → l.map f = l := by
  intro l
  induction l with
  | nil => intro _; rfl
  | cons a t ih =>
    intro h
    rw [List.map_cons, h a (List.mem_cons_self a t),
      ih (fun c hc => h c (List.mem_cons_of_mem a hc))]

theorem mem_joinSp :
    ∀ (ks : List (List Char)) (c : Char), c ∈ joinSp ks →
      (∃ k ∈ ks, c ∈ k) ∨ c = ' ' := by
  intro ks
  induction ks with
  | nil => intro c hc; simp [joinSp] at hc
  | cons k ks ih =>
    intro c hc
    cases ks with
    | nil =>
      rw [joinSp] at hc
      exact Or.inl ⟨k, List.mem_cons_self k [], hc⟩
    | cons k2 ks' =>
      rw [joinSp] at hc
      rcases List.mem_append.mp hc with h1 | h1
      · exact Or.inl ⟨k, List.mem_cons_self _ _, h1⟩
      · rcases List.mem_cons.mp h1 with h2 | h2
        · exact Or.inr h2
        · rcases ih c h2 with ⟨k', hk', hck'⟩ | h3
          · exact Or.inl ⟨k', List.mem_cons_of_mem k hk', hck'⟩
          · exact Or.inr h3

theorem lowerL_joinSp (ks : List (List Char))
    (h : ∀ k ∈ ks, ∀ c ∈ k, isLowerAlnum c = true) :
    lowerL (joinSp ks) = joinSp ks := by
  unfold lowerL
  refine map_id_of _ _ ?_
  intro c hc
  rcases mem_joinSp ks c hc with ⟨k, hk, hck⟩ | h1
  · exact toLower_eq_self c (h k hk c hck)
  · subst h1; rfl

theorem runsF_joinSp :
    ∀ (ks : List (List Char)) (fuel : Nat), (joinSp ks).length ≤ fuel →
      (∀ k ∈ ks, k ≠ [] ∧ ∀ c ∈ k, isWordChar c = true) →
      runsF isWordChar fuel (joinSp ks) = ks := by
  intro ks
  induction ks with
  | nil => intro fuel _ _; exact runsF_nil isWordChar fuel
  | cons k ks ih =>
    intro fuel hfuel hall
    obtain ⟨hkne, hkw⟩ := hall k (List.mem_cons_self k ks)
    cases ks with
    | nil =>
      cases k with
      | nil => exact absurd rfl hkne
      | cons c k' =>
        cases fuel with
        | zero => simp [joinSp] at hfuel
        | succ f =>
          show runsF isWordChar (f + 1) (c :: k') = [c :: k']
          rw [runsF, if_pos (hkw c (List.mem_cons_self c k')),
            takeWhile_all _ k' (fun d hd => hkw d (List.mem_cons_of_mem c hd)),
            dropWhile_all _ k' (fun d hd => hkw d (List.mem_cons_of_mem c hd)),
            runsF_nil]
    | cons k2 ks' =>
      cases k with
      | nil => exact absurd rfl hkne
      | cons c k' =>
        have hjoin : joinSp ((c :: k') :: k2 :: ks') = c :: (k' ++ ' ' :: joinSp (k2 :: ks')) := rfl
        rw [hjoin] at hfuel ⊢
        have hlen : k'.length + 2 + (joinSp (k2 :: ks')).length ≤ fuel := by
          simp only [List.length_cons, List.length_append] at hfuel
          omega
        cases fuel with
        | zero => omega
        | succ f =>
          rw [runsF, if_pos (hkw c (List.mem_cons_self c k')),
            takeWhile_all_append _ k' ' ' _ (fun d hd => hkw d (List.mem_cons_of_mem c hd))
              (by decide),
            dropWhile_all_append _ k' ' ' _ (fun d hd => hkw d (List.mem_cons_of_mem c hd))
              (by decide)]
          congr 1
          cases f with
          | zero => omega
          | succ g =>
            rw [runsF, if_neg (by decide)]
            exact ih g (by omega) (fun x hx => hall x (List.mem_cons_of_mem _ hx))

theorem typePriority_ge_one (t : String) : (1 : ℚ) ≤ typePriority t := by
  unfold typePriority
  split_ifs <;> norm_num

theorem score_ge_one (entries : List Entry) (e : Entry)
    (qkw : List (List Char)) (qt : List Char) :
    (1 : ℚ) ≤ calculateRelevanceScore entries e qkw qt := by
  unfold calculateRelevanceScore
  have h1 : (0 : ℚ) ≤ (if qkw ≠ [] ∧ e.keywords ≠ [] then
      ((min (keywordOverlap qkw e.keywords * 2) 10 : Nat) : ℚ) else 0) := by
    split_ifs
    · positivity
    · exact le_refl 0
  have h2 := typePriority_ge_one e.type
  have h3 : (0 : ℚ) ≤ recencyScore entries e := by
    unfold recencyScore
    positivity
  have h4 : (0 : ℚ) ≤ phraseScore e qt := phraseLoop_nonneg _ _
  linarith

theorem pyIndex_get :
    ∀ (l : List Entry), l.Nodup → ∀ (k : Nat) (hk : k < l.length),
      pyIndex (l.get ⟨k, hk⟩) l = k := by
  intro l
  induction l with
  | nil => intro _ k hk; simp at hk
  | cons x xs ih =>
    intro hnd k hk
    obtain ⟨hx, hnd'⟩ := List.nodup_cons.mp hnd
    cases k with
    | zero => simp [pyIndex]
    | succ j =>
      have hj : j < xs.length := by simpa using hk
      have hget : (x :: xs).get ⟨j + 1, hk⟩ = xs.get ⟨j, hj⟩ := rfl
      rw [hget]
      unfold pyIndex
      rw [if_neg, ih hnd' j hj]
      intro he
      exact hx (by rw [he]; exact List.get_mem xs j hj)

theorem mem_insertScored (a x : ℚ × Entry) :
    ∀ l : List (ℚ × Entry), x ∈ insertScored a l ↔ x = a ∨ x ∈ l := by
  intro l
  induction l with
  | nil => simp [insertScored]
  | cons b bs ih =>
    by_cases h : a.1 ≤ b.1
    · rw [insertScored, if_pos h]
      simp only [List.mem_cons, ih]
      tauto
    · rw [insertScored, if_neg h]
      simp only [List.mem_cons]

theorem pairwise_insertScored (a : ℚ × Entry) :
    ∀ l, List.Pairwise scoreGE l → List.Pairwise scoreGE (insertScored a l) := by
  intro l
  induction l with
  | nil => intro _; simp [insertScored, List.pairwise_singleton]
  | cons b bs ih =>
    intro hp
    obtain ⟨hb, hbs⟩ := List.pairwise_cons.mp hp
    by_cases h : a.1 ≤ b.1
    · rw [insertScored, if_pos h]
      refine List.pairwise_cons.mpr ⟨?_, ih hbs⟩
      intro x hx
      rcases (mem_insertScored a x bs).mp hx with h1 | h1
      · show x.1 ≤ b.1
        exact h1 ▸ h
      · exact hb x h1
    · rw [insertScored, if_neg h]
      have hba : b.1 ≤ a.1 := le_of_lt (lt_of_not_le h)
      refine List.pairwise_cons.mpr ⟨?_, hp⟩
      intro x hx
      rcases List.mem_cons.mp hx with h1 | h1
      · show x.1 ≤ a.1
        exact h1 ▸ hba
      · show x.1 ≤ a.1
        exact le_trans (hb x h1) hba

theorem mem_foldl_insertScored :
    ∀ (l acc : List (ℚ × Entry)) (x : ℚ × Entry),
      x ∈ l.foldl (fun a y => insertScored y a) acc ↔ x ∈ acc ∨ x ∈ l := by
  intro l
  induction l with
  | nil => intro acc x; simp
  | cons y l ih =>
    intro acc x
    rw [List.foldl_cons, ih, mem_insertScored]
    simp only [List.mem_cons]
    tauto

theorem pairwise_foldl_insertScored :
    ∀ (l acc : List (ℚ × Entry)), List.Pairwise scoreGE acc →
      List.Pairwise scoreGE (l.foldl (fun a y => insertScored y a) acc) := by
  intro l
  induction l with
  | nil => intro acc h; exact h
  | cons y l ih =>
    intro acc h
    exact ih _ (pairwise_insertScored y acc h)

theorem mem_sortScored (l : List (ℚ × Entry)) (x : ℚ × Entry) :
    x ∈ sortScored l ↔ x ∈ l := by
  unfold sortScored
  rw [mem_foldl_insertScored]
  simp

theorem pairwise_sortScored (l : List (ℚ × Entry)) :
    List.Pairwise scoreGE (sortScored l) :=
  pairwise_foldl_insertScored l [] List.Pairwise.nil

theorem filter_insertScored (s : ℚ) (a : ℚ × Entry) :
    ∀ l, List.Pairwise scoreGE l →
      (insertScored a l).filter (fun p => decide (p.1 = s))
        = l.filter (fun p => decide (p.1 = s)) ++ (if a.1 = s then [a] else []) := by
  intro l
  induction l with
  | nil =>
    by_cases h : a.1 = s <;> simp [insertScored, List.filter_cons, h]
  | cons b bs ih =>
    intro hp
    obtain ⟨hb, hbs⟩ := List.pairwise_cons.mp hp
    by_cases hab : a.1 ≤ b.1
    · rw [insertScored, if_pos hab, List.filter_cons, List.filter_cons, ih hbs]
      by_cases hcond : b.1 = s <;> simp [hcond]
    · rw [insertScored, if_neg hab, List.filter_cons]
      have hlt : b.1 < a.1 := lt_of_not_le hab
      by_cases has : a.1 = s
      · have hnil : (b :: bs).filter (fun p => decide (p.1 = s)) = [] := by
          rw [List.filter_eq_nil_iff]
          intro x hx
          simp only [decide_eq_true_eq]
          intro hxs
          rcases List.mem_cons.mp hx with h1 | h1
          · rw [h1] at hxs
            linarith
          · have hxb : x.1 ≤ b.1 := hb x h1
            linarith
        rw [hnil]
        simp [has]
      · simp [has]

theorem filter_foldl_insertScored (s : ℚ) :
    ∀ (l acc : List (ℚ × Entry)), List.Pairwise scoreGE acc →
      (l.foldl (fun a y => insertScored y a) acc).filter (fun p => decide (p.1 = s))
        = acc.filter (fun p => decide (p.1 = s)) ++ l.filter (fun p => decide (p.1 = s)) := by
  intro l
  induction l with
  | nil => intro acc _; simp
  | cons y l ih =>
    intro acc hacc
    rw [List.foldl_cons, ih _ (pairwise_insertScored y acc hacc),
      filter_insertScored s y acc hacc, List.filter_cons]
    by_cases h : y.1 = s <;> simp [h, List.append_assoc]

theorem lastK_of_drop {α : Type} (k d : Nat) (l : List α) (h : k + d ≤ l.length) :
    lastK k (l.drop d) = lastK k l := by
  unfold lastK
  rw [List.length_drop, List.drop_drop]
  congr 1
  omega

theorem add_len_le (m : Memory) (h : m.entries.length ≤ maxEntries)
    (text : List Char) (md : List (String × String)) (ts : String) :
    (add m text md ts).entries.length ≤ maxEntries := by
  simp only [add]
  split
  · rw [List.length_drop]
    omega
  · next hcond =>
    simp only [List.length_append, List.length_cons, List.length_nil, not_lt] at hcond ⊢
    omega

theorem runFrom_len_le :
    ∀ (cs : List AddCall) (m : Memory), m.entries.length ≤ maxEntries →
      (runFrom m cs).entries.length ≤ maxEntries := by
  intro cs
  induction cs with
  | nil => intro m h; exact h
  | cons c cs ih =>
    intro m h
    exact ih _ (add_len_le m h c.text c.metadata c.ts)

theorem add_at_cap (m : Memory) (h : m.entries.length = maxEntries)
    (text : List Char) (md : List (String × String)) (ts : String) :
    (add m text md ts).entries
      = m.entries.tail ++ [mkEntry m.entries.length text md ts] := by
  have h100 : m.entries.length = 100 := h
  simp only [add]
  rw [if_pos (by simp only [List.length_append, List.length_cons, List.length_nil, h100,
    maxEntries]; omega)]
  have hamount : (m.entries ++ [mkEntry m.entries.length text md ts]).length - maxEntries = 1 := by
    simp only [List.length_append, List.length_cons, List.length_nil, h100, maxEntries]
  rw [hamount, List.drop_append_of_le_length (by omega : 1 ≤ m.entries.length), List.drop_one]

theorem add_not_at_cap (m : Memory) (h : m.entries.length < maxEntries)
    (text : List Char) (md : List (String × String)) (ts : String) :
    (add m text md ts).entries
      = m.entries ++ [mkEntry m.entries.length text md ts] := by
  simp only [add]
  rw [if_neg (by simp only [List.length_append, List.length_cons, List.length_nil, not_lt]; omega)]

theorem runFrom_texts :
    ∀ (cs : List AddCall) (m : Memory), m.entries.length ≤ maxEntries →
      (runFrom m cs).entries.map (fun e => e.text)
        = lastK maxEntries (m.entries.map (fun e => e.text) ++ cs.map (fun c => c.text)) := by
  intro cs
  induction cs with
  | nil =>
    intro m h
    show m.entries.map (fun e => e.text)
      = lastK maxEntries (m.entries.map (fun e => e.text) ++ [])
    unfold lastK
    rw [List.append_nil, List.length_map, Nat.sub_eq_zero_of_le h, List.drop_zero]
  | cons c cs ih =>
    intro m h
    show (runFrom (add m c.text c.metadata c.ts) cs).entries.map (fun e => e.text) = _
    rw [ih _ (add_len_le m h c.text c.metadata c.ts)]
    by_cases hcap : m.entries.length < maxEntries
    · rw [add_not_at_cap m hcap]
      rw [List.map_append]
      show lastK maxEntries ((m.entries.map (fun e => e.text) ++ [c.text]) ++ cs.map (fun c => c.text)) = _
      rw [List.append_assoc, List.singleton_append, List.map_cons]
    · have hlen : m.entries.length = maxEntries := by omega
      rw [add_at_cap m hlen]
      rw [List.map_append]
      have hmk : List.map (fun e => e.text)
          [mkEntry m.entries.length c.text c.metadata c.ts] = [c.text] := rfl
      rw [hmk]
      have htail : m.entries.tail.map (fun e => e.text)
          = (m.entries.map (fun e => e.text)).drop 1 := by
        rw [← List.drop_one, List.map_drop]
      rw [htail, List.append_assoc, List.singleton_append]
      have hsplit : (m.entries.map (fun e => e.text)).drop 1 ++ c.text :: cs.map (fun c => c.text)
          = (m.entries.map (fun e => e.text) ++ c.text :: cs.map (fun c => c.text)).drop 1 := by
        rw [List.drop_append_of_le_length]
        rw [List.length_map, hlen]
        exact Nat.one_le_iff_ne_zero.mpr (by simp [maxEntries])
      rw [hsplit, lastK_of_drop, List.map_cons]
      rw [List.length_append, List.length_map, List.length_cons, hlen]
      omega

/-- Claim C1 counterexample: for the query `"alpha beta gamma delta"` and
an entry whose text is `"beta gamma delta"`, the overlapping 3-word
window `"beta gamma delta"` does occur in the entry text (so the claim
demands a bonus of 5), yet the source's `re.findall` scan is
non-overlapping: it produces only `"alpha beta gamma"`, no phrase
matches, and the phrase component is 0. -/
theorem claim1_counterexample :
    phraseLoop (pyPhrases (lowerL (String.toList "alpha beta gamma delta")))
        (lowerL (String.toList "beta gamma delta")) = 0
    ∧ (specOverlappingWindows (String.toList "alpha beta gamma delta")).any
        (fun w => hasSub (lowerL (String.toList "beta gamma delta")) w) = true := by
  constructor
  · decide
  · decide

/-- Claim C1 (amended): the phrase-match component of the relevance score
is computed from the non-overlapping left-to-right scan `pyPhrases` of the
lowercased query text (three word runs separated by purely-whitespace
gaps, the scan resuming after the third word), and it adds exactly 5 —
at most once per entry — when any such phrase is a literal substring of
the lowercased entry text, and 0 otherwise. -/
theorem claim1_phrase_component (entries : List Entry) (e : Entry)
    (qkw : List (List Char)) (qt : List Char) :
    calculateRelevanceScore entries e qkw qt
      = (if qkw ≠ [] ∧ e.keywords ≠ [] then
          ((min (keywordOverlap qkw e.keywords * 2) 10 : Nat) : ℚ) else 0)
        + typePriority e.type + recencyScore entries e
        + (if (pyPhrases qt).any (fun p => hasSub (lowerL e.text) p) then (5 : ℚ) else 0) := by
  unfold calculateRelevanceScore phraseScore
  rw [phraseLoop_eq_ite]

/-- Claim C5 counterexample: on the input `"foo_bar"` the claimed
tokenization (underscore as separator) yields the keywords `foo` and
`bar`, but the source's regex `\b[a-z0-9]+\b` finds no word boundary
inside the word-character run `foo_bar`, so `extractKeywords` returns the
empty set. -/
theorem claim5_counterexample :
    extractKeywords (String.toList "foo_bar") = []
    ∧ specTokenExtract (String.toList "foo_bar")
        = [String.toList "foo", String.toList "bar"] := by
  constructor
  · decide
  · decide

/-- Claim C5 (amended): `extractKeywords` lowercases the text and its
tokens are exactly the maximal runs of word characters (ASCII letters,
digits, underscore) that consist entirely of `[a-z0-9]` characters — a
run containing an underscore is discarded whole rather than split — from
which stop-words and tokens of length at most 2 are dropped, the rest
being returned as a set. -/
theorem claim5_tokenization (t w : List Char) :
    w ∈ extractKeywords t ↔
      w ∈ runsP isWordChar (lowerL t) ∧ w.all isLowerAlnum = true
        ∧ w ∉ stopWords ∧ 2 < w.length :=
  mem_extractKeywords t w

/-- Witness for claim C5 at a concrete text and token. -/
theorem claim5_witness :
    String.toList "database" ∈ extractKeywords (String.toList "big database") :=
  (claim5_tokenization (String.toList "big database") (String.toList "database")).mpr
    ⟨by decide, by decide, by decide, by decide⟩

/-- Claim C9: the sort used by `query` is stable with respect to the
scanning order: `scoredOf` lists the scored entries in store order, and
for every exact score value the sub-sequence of the sorted list holding
that score equals the corresponding sub-sequence of the scan, so
equal-scoring entries keep their store order (Python's `list.sort` is
stable; the model `sortScored` is a stable descending insertion sort). -/
theorem claim9_sort_stability (m : Memory) (prompt : List Char) (s : ℚ) :
    (sortScored (scoredOf m prompt)).filter (fun p => decide (p.1 = s))
      = (scoredOf m prompt).filter (fun p => decide (p.1 = s)) := by
  unfold sortScored
  rw [filter_foldl_insertScored s (scoredOf m prompt) [] List.Pairwise.nil]
  simp

/-- Claim C10: re-extracting keywords from the space-joined keyword set
reproduces exactly the same keyword set, and every extracted keyword is
already lowercase alphanumeric, longer than 2 characters and not a
stop-word. -/
theorem claim10_extract_fixed_point (t : List Char) :
    extractKeywords (joinSp (extractKeywords t)) = extractKeywords t
    ∧ ∀ w ∈ extractKeywords t,
        w.all isLowerAlnum = true ∧ 2 < w.length ∧ w ∉ stopWords := by
  have hmem : ∀ w ∈ extractKeywords t,
      w ∈ runsP isWordChar (lowerL t) ∧ w.all isLowerAlnum = true ∧
        w ∉ stopWords ∧ 2 < w.length :=
    fun w hw => (mem_extractKeywords t w).mp hw
  have hprops : ∀ w ∈ extractKeywords t, w ≠ [] ∧ ∀ c ∈ w, isLowerAlnum c = true := by
    intro w hw
    obtain ⟨hrun, hall, _, _⟩ := hmem w hw
    exact ⟨(runsP_mem isWordChar (lowerL t) w hrun).1,
      fun c hc => (List.all_eq_true.mp hall) c hc⟩
  constructor
  · have hlower : lowerL (joinSp (extractKeywords t)) = joinSp (extractKeywords t) :=
      lowerL_joinSp _ (fun k hk => (hprops k hk).2)
    have hruns : runsP isWordChar (joinSp (extractKeywords t)) = extractKeywords t := by
      unfold runsP
      exact runsF_joinSp (extractKeywords t) _ (le_refl _)
        (fun k hk => ⟨(hprops k hk).1,
          fun c hc => lowerAlnum_isWordChar c ((hprops k hk).2 c hc)⟩)
    rw [show extractKeywords (joinSp (extractKeywords t))
        = dedupF (((runsP isWordChar (lowerL (joinSp (extractKeywords t)))).filter
            (fun w => w.all isLowerAlnum)).filter
          (fun w => !(decide (w ∈ stopWords)) && decide (2 < w.length))) from rfl]
    rw [hlower, hruns]
    rw [List.filter_eq_self.mpr (fun w hw => (hmem w hw).2.1)]
    rw [List.filter_eq_self.mpr ?pass]
    case pass =>
      intro w hw
      obtain ⟨_, _, hstop, hlen⟩ := hmem w hw
      simp only [Bool.and_eq_true, Bool.not_eq_true', decide_eq_false_iff_not,
        decide_eq_true_eq]
      exact ⟨hstop, hlen⟩
    exact dedupF_eq_self _ (nodup_dedupF _)
  · intro w hw
    obtain ⟨_, h2, h3, h4⟩ := hmem w hw
    exact ⟨h2, h4, h3⟩

/-- Witness for claim C10 at a concrete text. -/
theorem claim10_witness :
    extractKeywords (joinSp (extractKeywords c10text)) = extractKeywords c10text
    ∧ String.toList "database" ∈ extractKeywords c10text
    ∧ ((String.toList "database").all isLowerAlnum = true
        ∧ 2 < (String.toList "database").length
        ∧ String.toList "database" ∉ stopWords) :=
  ⟨(claim10_extract_fixed_point c10text).1, by decide,
    (claim10_extract_fixed_point c10text).2 (String.toList "database") (by decide)⟩

theorem query_singleton_pos (pid : String) (e : Entry) (p : List Char) (n : Nat)
    (hn : 1 ≤ n)
    (hs : (0 : ℚ) < calculateRelevanceScore [e] e (extractKeywords p) (lowerL p)) :
    query ⟨pid, [e]⟩ p n = [e.text] := by
  unfold query scoredOf
  simp only [List.isEmpty_cons]
  simp only [List.map_cons, List.map_nil, sortScored, List.foldl, insertScored]
  cases n with
  | zero => omega
  | succ m =>
    simp only [List.take_succ_cons, List.take_nil, List.filter_cons, List.filter_nil]
    rw [decide_eq_true hs]
    simp

theorem c2entry_score :
    calculateRelevanceScore [c2entry] c2entry (extractKeywords (String.toList "xyz"))
      (lowerL (String.toList "xyz")) = 1 := by
  have h1 : extractKeywords (String.toList "xyz") = [String.toList "xyz"] := by decide
  have h4 : pyIndex c2entry [c2entry] = 0 := by decide
  have h2 : keywordOverlap [String.toList "xyz"] c2entry.keywords = 0 := by decide
  have h3 : phraseLoop (pyPhrases (lowerL (String.toList "xyz"))) (lowerL c2entry.text) = 0 := by
    decide
  have h5 : typePriority c2entry.type = 1 := by decide
  unfold calculateRelevanceScore recencyScore phraseScore
  rw [h1, h4, h2, h3, h5,
    if_pos (⟨by decide, by decide⟩ : [String.toList "xyz"] ≠ [] ∧ c2entry.keywords ≠ [])]
  norm_num

/-- Claim C2 counterexample: the claimed zero-scoring configuration — a
`general`-typed entry at index 0 of a single-entry store, no keyword
overlap with the query and no phrase match — actually scores 1 (the type
component is never below 1), so `query` returns the entry's text instead
of the claimed empty sequence. -/
theorem claim2_counterexample :
    calculateRelevanceScore [c2entry] c2entry (extractKeywords (String.toList "xyz"))
        (lowerL (String.toList "xyz")) = 1
    ∧ query ⟨"p", [c2entry]⟩ (String.toList "xyz") 5 = [String.toList "hello"] := by
  refine ⟨c2entry_score, ?_⟩
  have h := query_singleton_pos "p" c2entry (String.toList "xyz") 5 (by norm_num)
    (by rw [c2entry_score]; norm_num)
  rw [h]
  rfl

/-- Claim C2 (amended): no entry is ever dropped by the positive-score
filter of `query`: every relevance score is at least 1, because the type
component is at least 1 and the other three components are non-negative;
consequently `query` always returns exactly the texts of the first `n`
entries of the descending stable sort — in the claimed scenario the
singleton of the stored entry's text, not the empty sequence. -/
theorem claim2_no_entry_dropped :
    (∀ (entries : List Entry) (e : Entry) (qkw : List (List Char)) (qt : List Char),
      (1 : ℚ) ≤ calculateRelevanceScore entries e qkw qt)
    ∧ ∀ (m : Memory) (prompt : List Char) (n : Nat),
        query m prompt n
          = ((sortScored (scoredOf m prompt)).take n).map (fun p => p.2.text) := by
  refine ⟨score_ge_one, ?_⟩
  intro m prompt n
  unfold query
  by_cases hemp : m.entries.isEmpty
  · rw [if_pos hemp]
    have hnil : m.entries = [] := List.isEmpty_iff.mp hemp
    simp [scoredOf, hnil, sortScored]
  · rw [if_neg hemp]
    have hall : ∀ p ∈ (sortScored (scoredOf m prompt)).take n,
        decide ((0 : ℚ) < p.1) = true := by
      intro p hp
      have hp2 : p ∈ scoredOf m prompt :=
        (mem_sortScored _ p).mp (List.mem_of_mem_take hp)
      unfold scoredOf at hp2
      obtain ⟨e, _, heq⟩ := List.mem_map.mp hp2
      have h1 : (1 : ℚ) ≤ p.1 := by
        rw [← heq]
        exact score_ge_one _ _ _ _
      simp only [decide_eq_true_eq]
      linarith
    rw [List.filter_eq_self.mpr hall]

/-- Claim C3 counterexample: on a single-entry store, `getRecent 0`
returns the (reversed) whole store — the Python slice `entries[-0:]` is
`entries[0:]` — not the empty sequence the claim requires for `n = 0`. -/
theorem claim3_counterexample :
    getRecent ⟨"p", [c3entry]⟩ 0 = [String.toList "hi"]
    ∧ getRecent ⟨"p", [c3entry]⟩ 0 ≠ [] := by
  constructor
  · decide
  · decide

/-- Claim C3 (amended): for every `n ≥ 1`, `getRecent n` returns the
texts of the last `min n (length)` stored entries, most-recent-first
(strictly reverse insertion order); `getRecent 0`, however, returns the
texts of all stored entries, most-recent-first. -/
theorem claim3_get_recent (m : Memory) (n : Nat) :
    (1 ≤ n → getRecent m n
        = ((m.entries.drop (m.entries.length - n)).reverse).map (fun e => e.text))
    ∧ getRecent m 0 = (m.entries.reverse).map (fun e => e.text) := by
  constructor
  · intro hn
    unfold getRecent pyLastSlice
    by_cases hle : n ≤ m.entries.length
    · rw [if_pos hle, if_neg (by omega)]
    · rw [if_neg hle]
      have h0 : m.entries.length - n = 0 := by omega
      rw [h0, List.drop_zero]
  · unfold getRecent pyLastSlice
    rw [if_pos (Nat.zero_le _), if_pos rfl]

/-- Witness for claim C3 at a concrete two-entry store, for `n = 2` and
`n = 0`. -/
theorem claim3_witness :
    (1 ≤ 2 ∧ getRecent c3mem 2
        = ((c3mem.entries.drop (c3mem.entries.length - 2)).reverse).map (fun e => e.text))
    ∧ getRecent c3mem 0 = (c3mem.entries.reverse).map (fun e => e.text) :=
  ⟨⟨by decide, (claim3_get_recent c3mem 2).1 (by decide)⟩, (claim3_get_recent c3mem 0).2⟩

theorem c6dup_score :
    calculateRelevanceScore [c6dup, c6dup] c6dup (extractKeywords (String.toList "zzz"))
      (lowerL (String.toList "zzz")) = 1 := by
  have h4 : pyIndex c6dup [c6dup, c6dup] = 0 := by decide
  have h3 : phraseLoop (pyPhrases (lowerL (String.toList "zzz"))) (lowerL c6dup.text) = 0 := by
    decide
  have h5 : typePriority c6dup.type = 1 := by decide
  unfold calculateRelevanceScore recencyScore phraseScore
  rw [h4, h3, h5, if_neg (fun hcon => hcon.2 rfl)]
  norm_num

/-- Claim C6 counterexample: a store holding two structurally identical
entries (equal field values).  `list.index` finds the first equal entry,
so both copies receive recency `(0 / 2) * 2 = 0` and the identical total
score 1 — the later-inserted copy does not score strictly higher, and its
recency is not `(1 / 2) * 2` as the claim's position formula requires. -/
theorem claim6_counterexample :
    recencyScore [c6dup, c6dup] c6dup = 0
    ∧ (scoredOf ⟨"p", [c6dup, c6dup]⟩ (String.toList "zzz")).map (fun p => p.1)
        = [1, 1] := by
  constructor
  · unfold recencyScore
    rw [(by decide : pyIndex c6dup [c6dup, c6dup] = 0)]
    norm_num
  · have hlist : scoredOf ⟨"p", [c6dup, c6dup]⟩ (String.toList "zzz")
        = [(calculateRelevanceScore [c6dup, c6dup] c6dup
              (extractKeywords (String.toList "zzz")) (lowerL (String.toList "zzz")), c6dup),
           (calculateRelevanceScore [c6dup, c6dup] c6dup
              (extractKeywords (String.toList "zzz")) (lowerL (String.toList "zzz")), c6dup)] :=
      rfl
    rw [hlist]
    simp only [List.map_cons, List.map_nil]
    rw [c6dup_score]

/-- Claim C6 (amended): the recency component is `(index of the first
structurally equal store entry / total count) × 2`; whenever the store's
entries are pairwise distinct, an entry at a later index scores strictly
higher than an entry at an earlier index that agrees with it on text,
type and keywords (structurally identical duplicates, by contrast,
receive identical scores). -/
theorem claim6_recency_strict (m : Memory) (i j : Nat) (qkw : List (List Char))
    (qt : List Char) (hij : i < j) (hj : j < m.entries.length) (hnd : m.entries.Nodup)
    (htext : (m.entries.get ⟨i, Nat.lt_trans hij hj⟩).text = (m.entries.get ⟨j, hj⟩).text)
    (htype : (m.entries.get ⟨i, Nat.lt_trans hij hj⟩).type = (m.entries.get ⟨j, hj⟩).type)
    (hkw : (m.entries.get ⟨i, Nat.lt_trans hij hj⟩).keywords
        = (m.entries.get ⟨j, hj⟩).keywords) :
    calculateRelevanceScore m.entries (m.entries.get ⟨i, Nat.lt_trans hij hj⟩) qkw qt
      < calculateRelevanceScore m.entries (m.entries.get ⟨j, hj⟩) qkw qt := by
  have hrec : recencyScore m.entries (m.entries.get ⟨i, Nat.lt_trans hij hj⟩)
      < recencyScore m.entries (m.entries.get ⟨j, hj⟩) := by
    unfold recencyScore
    rw [pyIndex_get m.entries hnd i (Nat.lt_trans hij hj), pyIndex_get m.entries hnd j hj]
    have hlen : (0 : ℚ) < (m.entries.length : ℚ) := by
      exact_mod_cast Nat.lt_of_le_of_lt (Nat.zero_le j) hj
    have hij' : ((i : Nat) : ℚ) < ((j : Nat) : ℚ) := by exact_mod_cast hij
    have h1 : ((i : Nat) : ℚ) / (m.entries.length : ℚ)
        < ((j : Nat) : ℚ) / (m.entries.length : ℚ) := by
      rw [div_lt_div_iff₀ hlen hlen]
      exact mul_lt_mul_of_pos_right hij' hlen
    linarith
  unfold calculateRelevanceScore phraseScore
  rw [htext, htype, hkw]
  linarith [hrec]

/-- Witness for claim C6: two entries that differ only in id and
timestamp, stored in a duplicate-free two-entry store. -/
theorem claim6_witness :
    (0 : Nat) < 1 ∧ 1 < (Memory.mk "p" [c6fst, c6snd]).entries.length
    ∧ (Memory.mk "p" [c6fst, c6snd]).entries.Nodup
    ∧ calculateRelevanceScore (Memory.mk "p" [c6fst, c6snd]).entries
        ((Memory.mk "p" [c6fst, c6snd]).entries.get ⟨0, by decide⟩) [] []
      < calculateRelevanceScore (Memory.mk "p" [c6fst, c6snd]).entries
        ((Memory.mk "p" [c6fst, c6snd]).entries.get ⟨1, by decide⟩) [] [] :=
  ⟨by decide, by decide, by decide,
    claim6_recency_strict (Memory.mk "p" [c6fst, c6snd]) 0 1 [] []
      (by decide) (by decide) (by decide) rfl rfl rfl⟩

/-- Claim C4: the store never exceeds 100 entries over any sequence of
`add` calls from a fresh store; an `add` against a full store drops
exactly the single oldest entry (head) and appends the new one; and after
105 sequential adds the store holds exactly the texts of the last 100
calls, oldest-first to newest-last. -/
theorem claim4_bound_and_eviction (pid : String) (ops : List AddCall) (m : Memory)
    (c : AddCall) (h100 : m.entries.length = 100) (h105 : ops.length = 105) :
    (∀ ops2 : List AddCall, (runAdds pid ops2).entries.length ≤ 100)
    ∧ (add m c.text c.metadata c.ts).entries
        = m.entries.tail ++ [mkEntry m.entries.length c.text c.metadata c.ts]
    ∧ (runAdds pid ops).entries.map (fun e => e.text)
        = (ops.map (fun c => c.text)).drop 5 := by
  refine ⟨?_, add_at_cap m h100 c.text c.metadata c.ts, ?_⟩
  · intro ops2
    exact runFrom_len_le ops2 ⟨pid, []⟩ (Nat.zero_le _)
  · have htex := runFrom_texts ops ⟨pid, []⟩ (Nat.zero_le _)
    rw [show runAdds pid ops = runFrom ⟨pid, []⟩ ops from rfl, htex]
    have h0 : (Memory.mk pid []).entries.map (fun e => e.text) = [] := rfl
    rw [h0, List.nil_append]
    unfold lastK
    rw [List.length_map, h105]
    rfl

/-- Witness for claim C4: a full 100-entry store, one further `add`, and
105 sequential adds from a fresh store. -/
theorem claim4_witness :
    (Memory.mk "p" (List.replicate 100 c4entry)).entries.length = 100
    ∧ (List.replicate 105 c4call).length = 105
    ∧ (runAdds "p" (List.replicate 105 c4call)).entries.length ≤ 100
    ∧ (add (Memory.mk "p" (List.replicate 100 c4entry)) c4call.text c4call.metadata
          c4call.ts).entries
        = (Memory.mk "p" (List.replicate 100 c4entry)).entries.tail
          ++ [mkEntry (Memory.mk "p" (List.replicate 100 c4entry)).entries.length
                c4call.text c4call.metadata c4call.ts]
    ∧ (runAdds "p" (List.replicate 105 c4call)).entries.map (fun e => e.text)
        = ((List.replicate 105 c4call).map (fun c => c.text)).drop 5 := by
  have h := claim4_bound_and_eviction "p" (List.replicate 105 c4call)
    (Memory.mk "p" (List.replicate 100 c4entry)) c4call (by simp) (by simp)
  exact ⟨by simp, by simp, h.1 (List.replicate 105 c4call), h.2.1, h.2.2⟩

theorem keywordOverlap_zero (qkw ekw : List (List Char))
    (h : qkw = [] ∨ ekw = []) : keywordOverlap qkw ekw = 0 := by
  rcases h with h | h <;> subst h
  · rfl
  · simp [keywordOverlap]

/-- Claim C7: the total relevance score is the sum of exactly four
components: keyword overlap `min (2 × |q ∩ e|) 10` (zero whenever either
keyword set is empty), the fixed type-priority table (`requirements` and
`architecture` 5, `explanation` 4, `recommendations` 3, `qa` 2, `general`
1, any unrecognized type 1), the recency component and the phrase-match
component. -/
theorem claim7_score_components (entries : List Entry) (e : Entry)
    (qkw : List (List Char)) (qt : List Char) :
    (calculateRelevanceScore entries e qkw qt
      = ((min (2 * keywordOverlap qkw e.keywords) 10 : Nat) : ℚ)
        + typePriority e.type + recencyScore entries e + phraseScore e qt)
    ∧ (qkw = [] ∨ e.keywords = [] → keywordOverlap qkw e.keywords = 0)
    ∧ typePriority "requirements" = 5 ∧ typePriority "architecture" = 5
    ∧ typePriority "explanation" = 4 ∧ typePriority "recommendations" = 3
    ∧ typePriority "qa" = 2 ∧ typePriority "general" = 1
    ∧ ∀ t : String,
        t ∉ ["requirements", "architecture", "explanation", "recommendations",
             "qa", "general"]
        → typePriority t = 1 := by
  refine ⟨?_, keywordOverlap_zero qkw e.keywords, by decide, by decide, by decide,
    by decide, by decide, by decide, ?_⟩
  · unfold calculateRelevanceScore
    by_cases hcond : qkw ≠ [] ∧ e.keywords ≠ []
    · rw [if_pos hcond, Nat.mul_comm]
    · rw [if_neg hcond]
      have h0 : keywordOverlap qkw e.keywords = 0 := by
        rcases not_and_or.mp hcond with h | h
        · exact keywordOverlap_zero _ _ (Or.inl (not_not.mp h))
        · exact keywordOverlap_zero _ _ (Or.inr (not_not.mp h))
      rw [h0]
      norm_num
  · intro t1 ht
    simp only [List.mem_cons, List.not_mem_nil, or_false, not_or] at ht
    obtain ⟨n1, n2, n3, n4, n5, n6⟩ := ht
    unfold typePriority
    rw [if_neg n1, if_neg n2, if_neg n3, if_neg n4, if_neg n5, if_neg n6]

/-- Witness for claim C7 at a concrete entry with an empty keyword set
and an unrecognized type string. -/
theorem claim7_witness :
    (calculateRelevanceScore [c7entry] c7entry [] []
      = ((min (2 * keywordOverlap [] c7entry.keywords) 10 : Nat) : ℚ)
        + typePriority c7entry.type + recencyScore [c7entry] c7entry
        + phraseScore c7entry [])
    ∧ keywordOverlap [] c7entry.keywords = 0
    ∧ typePriority "zzz" = 1 :=
  ⟨(claim7_score_components [c7entry] c7entry [] []).1,
    (claim7_score_components [c7entry] c7entry [] []).2.1 (Or.inl rfl),
    (claim7_score_components [c7entry] c7entry [] []).2.2.2.2.2.2.2.2 "zzz" (by decide)⟩

/-- Claim C8: `query` returns the empty sequence on an empty store; its
output has length at most `n`; and the output is the image under
entry-text of a list of scored entries sorted descending by total
relevance score, each a stored entry carrying its relevance score, all
with strictly positive score. -/
theorem claim8_query_contract (m : Memory) (prompt : List Char) (n : Nat) :
    (m.entries = [] → query m prompt n = [])
    ∧ (query m prompt n).length ≤ n
    ∧ ∃ l : List (ℚ × Entry),
        query m prompt n = l.map (fun p => p.2.text)
        ∧ List.Pairwise scoreGE l
        ∧ l.length ≤ n
        ∧ ∀ p ∈ l, p.2 ∈ m.entries
            ∧ p.1 = calculateRelevanceScore m.entries p.2 (extractKeywords prompt)
                (lowerL prompt)
            ∧ 0 < p.1 := by
  by_cases hemp : m.entries.isEmpty
  · have hq : query m prompt n = [] := by
      unfold query
      rw [if_pos hemp]
    refine ⟨fun _ => hq, by rw [hq]; exact Nat.zero_le n, [], by rw [hq]; rfl,
      List.Pairwise.nil, Nat.zero_le n, by simp⟩
  · have hne : ¬ m.entries = [] := fun h => hemp (List.isEmpty_iff.mpr h)
    have hq : query m prompt n
        = (((sortScored (scoredOf m prompt)).take n).filter
            (fun p => decide ((0 : ℚ) < p.1))).map (fun p => p.2.text) := by
      unfold query
      rw [if_neg hemp]
    have hlen : (((sortScored (scoredOf m prompt)).take n).filter
        (fun p => decide ((0 : ℚ) < p.1))).length ≤ n :=
      le_trans (List.length_filter_le _ _) (List.length_take_le n _)
    refine ⟨fun hcon => absurd hcon hne, by rw [hq, List.length_map]; exact hlen,
      ((sortScored (scoredOf m prompt)).take n).filter (fun p => decide ((0 : ℚ) < p.1)),
      hq, ?_, hlen, ?_⟩
    · exact List.Pairwise.sublist
        ((List.filter_sublist _).trans (List.take_sublist n _)) (pairwise_sortScored _)
    · intro p hp
      have hp2 : p ∈ scoredOf m prompt :=
        (mem_sortScored _ p).mp (List.mem_of_mem_take (List.mem_of_mem_filter hp))
      have hpos : decide ((0 : ℚ) < p.1) = true :=
        @List.of_mem_filter _ (fun q => decide ((0 : ℚ) < q.1)) p _ hp
      unfold scoredOf at hp2
      obtain ⟨e, he, heq⟩ := List.mem_map.mp hp2
      refine ⟨?_, ?_, of_decide_eq_true hpos⟩
      · rw [← heq]
        exact he
      · rw [← heq]

/-- Witness for claim C8 on the empty store. -/
theorem claim8_witness :
    query (Memory.mk "p" []) (String.toList "ab") 3 = [] :=
  (claim8_query_contract (Memory.mk "p" []) (String.toList "ab") 3).1 rfl
